import Mathlib

set_option maxRecDepth 100000
set_option maxHeartbeats 1000000

/-!
Shallow embedding of `text/search.go` (package `text`): a chunked,
boundary-fenced whole-word text searcher.  Bytes are modelled as natural
numbers (their ASCII codes); Go byte slices and strings are lists of bytes.
Go runtime panics (out-of-range indexing/slicing, `make` with a negative
length) are modelled explicitly: fallible operations return `Option` or a
dedicated result type with a `panic` constructor.
-/

namespace TextSearch

/-- Bytes of the searched file, as ASCII codes. -/
abbrev Byte := Nat

/-- Go: `var chunkSize = 4*1024`. -/
def chunkSize : Nat := 4 * 1024

/-- Go: `wordCharactersList` holds the bytes of the characters
`a`-`z`, `A`-`Z`, `0`-`9`, apostrophe (39) and hyphen (45). -/
def wordCharactersList : List Byte :=
  ((List.range 26).map fun k => 97 + k) ++ ((List.range 26).map fun k => 65 + k) ++
    ((List.range 10).map fun k => 48 + k) ++ [39, 45]

/-- Go: `bytes.ContainsRune(wordCharactersList, rune b)` (all bytes involved
are ASCII, so rune decoding is the identity). -/
def isWordChar (b : Byte) : Bool := wordCharactersList.contains b

/-- Go: `punctuationList = []byte("\".,!?(){}[]")`. -/
def punctuationList : List Byte := [34, 46, 44, 33, 63, 40, 41, 123, 125, 91, 93]

/-- Go: `bytes.ToLower` on a single ASCII byte. -/
def toLowerByte (b : Byte) : Byte := if 65 ≤ b ∧ b ≤ 90 then b + 32 else b

/-- Go: `bytes.ToLower` / `strings.ToLower` over an ASCII byte sequence. -/
def lower (l : List Byte) : List Byte := l.map toLowerByte

/-- Go: `bytes.Index hay need`: index of the first occurrence of `need` as a
contiguous sub-sequence of `hay` (`some 0` for an empty `need`). -/
def indexOfSub (hay need : List Byte) : Option Nat :=
  if need.isPrefixOf hay then some 0
  else
    match hay with
    | [] => none
    | _ :: t => (indexOfSub t need).map fun k => k + 1

/-- ASCII white space bytes, as recognised (per byte) by `bytes.Fields`. -/
def isSpaceByte (b : Byte) : Bool :=
  b == 32 || b == 9 || b == 10 || b == 11 || b == 12 || b == 13

/-- Fuel-indexed worker for `bytesFields`; the fuel only has to dominate the
list length, so `bytesFields` passes `l.length`. -/
def bytesFieldsAux : Nat → List Byte → List (List Byte)
  | 0, _ => []
  | _, [] => []
  | fuel + 1, b :: rest =>
    if isSpaceByte b then bytesFieldsAux fuel rest
    else
      (b :: rest.takeWhile (fun c => !isSpaceByte c)) ::
        bytesFieldsAux fuel (rest.dropWhile (fun c => !isSpaceByte c))

/-- Go: `bytes.Fields`: split around maximal runs of white space. -/
def bytesFields (l : List Byte) : List (List Byte) := bytesFieldsAux l.length l

/-- Fuel-indexed worker for `replaceAll`; fuel `l.length` suffices because a
non-empty pattern consumes at least one byte per step. -/
def replaceAllAux (pat rep : List Byte) : Nat → List Byte → List Byte
  | 0, l => l
  | _, [] => []
  | fuel + 1, x :: xs =>
    if pat ≠ [] ∧ pat.isPrefixOf (x :: xs) then
      rep ++ replaceAllAux pat rep fuel ((x :: xs).drop pat.length)
    else
      x :: replaceAllAux pat rep fuel xs

/-- Go: `bytes.ReplaceAll l pat rep` (left-to-right, non-overlapping). -/
def replaceAll (l pat rep : List Byte) : List Byte := replaceAllAux pat rep l.length l

/-- Go: `removeReturnCharacters`: replace `"\r\n"` then `"\n"` by a space. -/
def removeReturnCharacters (buf : List Byte) : List Byte :=
  replaceAll (replaceAll buf [13, 10] [32]) [10] [32]

/-- Go: `minInt`. -/
def minInt (x y : Nat) : Nat := if x < y then x else y

/-- Go: the `TextSearcher` struct: the interleaved buffer list (chunks at
even slots, fence slots at odd slots). -/
structure TextSearcher where
  maxWordSizeInBytes : Nat
  fileBuffers : List (List Byte)
deriving DecidableEq

/-- Fuel-indexed worker for `chunksOf`; fuel `l.length` suffices for any
positive chunk size, because each step consumes at least one byte. -/
def chunksOfAux (c : Nat) : Nat → List Byte → List (List Byte)
  | 0, _ => []
  | _, [] => []
  | fuel + 1, x :: xs => (x :: xs.take (c - 1)) :: chunksOfAux c fuel (xs.drop (c - 1))

/-- The chunk sequence the `NewSearcher` read loop produces: successive
pieces of `c` bytes, the last piece possibly shorter (each `bufio` read on a
regular file returns `min c remaining` bytes into a fresh zero-filled buffer
of capacity `c`). -/
def chunksOf (c : Nat) (l : List Byte) : List (List Byte) := chunksOfAux c l.length l

/-- Go: the construction of `fileBuffersWithFencePosts`: a list of length
`2*n - 1` whose even slots are the chunks and whose odd (fence) slots are the
zero value `nil`, modelled as the empty list. -/
def withFencePosts : List (List Byte) → List (List Byte)
  | [] => []
  | [c] => [c]
  | c1 :: c2 :: rest => c1 :: [] :: withFencePosts (c2 :: rest)

/-- Go: `NewSearcher` (its pure content, after a successful open/stat/read).
For an empty file `numberOfFileChunks` is `0` and
`make([][]byte, (0*2)-1)` panics with a negative length, so no searcher is
produced: that case is `none`. -/
def newSearcher (file : List Byte) : Option TextSearcher :=
  if file.length = 0 then none
  else some { maxWordSizeInBytes := 20, fileBuffers := withFencePosts (chunksOf chunkSize file) }

/-- The zero-filled capacity-`c` backing array of a chunk produced by
`make([]byte, c)` followed by `buf = buf[:n]`: the chunk's bytes followed by
zero bytes up to length `c`. -/
def padTo (c : Nat) (l : List Byte) : List Byte := l ++ List.replicate (c - l.length) 0

/-- Go: the fence built inside `Search` for one adjacent chunk pair:
`append(firstHalfPost[len(firstHalfPost)-w:], secondHalfPost[0:w]...)`.
Slicing `secondHalfPost[0:w]` is legal up to the capacity `chunkSize` and
re-extends into the zero-filled backing array, hence `padTo`.  (For
`w > len(firstHalfPost)` or `w > chunkSize` the Go slicing panics; callers
model that case separately.) -/
def mkFence (left right : List Byte) (w : Nat) : List Byte :=
  left.drop (left.length - w) ++ (padTo chunkSize right).take w

/-- Go: the fence-filling loop of `Search`: every odd slot `i` is overwritten
with the fence built from its chunk neighbours `i-1` and `i+1`. -/
def fillFences (w : Nat) : List (List Byte) → List (List Byte)
  | a :: _ :: c :: rest => a :: mkFence a c w :: fillFences w (c :: rest)
  | l => l

/-- Result of `isExactWord`: a boolean verdict, the explicit
`fmt.Errorf("out of bounds ...")` error, or a Go runtime panic from an
out-of-range index. -/
inductive IEW where
  | ok (b : Bool)
  | err
  | panic
deriving DecidableEq

/-- Indexing `buffers[i][j]` with Go semantics: `none` models the runtime
panic when either index is out of range. -/
def idx? (buffers : List (List Byte)) (i j : Nat) : Option Byte :=
  match buffers.get? i with
  | none => none
  | some b => b.get? j

/-- Go: `isExactWord`.  Note two faithful oddities of the source: the
end-of-file branch tests `bufferNum == len(ts.fileBuffers)` (an index that
can never be a valid buffer) and both special branches read the byte at
index `len(word)` of the buffer. -/
def isExactWord (buffers : List (List Byte)) (bufferNum : Nat) (word : List Byte)
    (index : Nat) : IEW :=
  if bufferNum = 0 ∧ index = 0 then
    match idx? buffers bufferNum word.length with
    | none => IEW.panic
    | some b => IEW.ok (!isWordChar b)
  else if bufferNum = buffers.length ∧ index + word.length = chunkSize then
    match idx? buffers bufferNum word.length with
    | none => IEW.panic
    | some b => IEW.ok (!isWordChar b)
  else if index = 0 ∨ chunkSize < index + 1 then
    IEW.err
  else
    match idx? buffers bufferNum (index - 1), idx? buffers bufferNum (index + word.length) with
    | some bb, some ba => IEW.ok (!(isWordChar bb || isWordChar ba))
    | _, _ => IEW.panic

/-- Go: `strings.Join words " "`. -/
def joinWords (ws : List (List Byte)) : List Byte := (ws.intersperse [32]).flatten

/-- Go: `findContext`, with an explicit fuel for its recursion (each
recursive call moves `bufferIndex` one byte outward, so any fuel larger than
the distance to the buffer edge gives the Go behaviour; the wrappers below
pass such a fuel). -/
def findContext (buffers : List (List Byte)) :
    Nat → List Byte → Bool → Nat → Nat → Nat → List Byte
  | 0, _, _, _, _, _ => []
  | fuel + 1, bufferAsideWord, prev, bufferNum, bufferIndex, numWords =>
    let fields := bytesFields bufferAsideWord
    let numWords := minInt fields.length numWords
    let wordsInBytes := if prev then fields.drop (fields.length - numWords)
                        else fields.take numWords
    match wordsInBytes with
    | [] => []
    | t :: _ =>
      match punctuationList.find? (fun b => t == [b]) with
      | some b =>
        if prev then
          findContext buffers fuel
            (removeReturnCharacters ((buffers.getD bufferNum []).take (bufferIndex - 1)))
            prev bufferNum (bufferIndex - 1) numWords ++ [b]
        else
          b :: findContext buffers fuel
            (removeReturnCharacters ((buffers.getD bufferNum []).drop (bufferIndex + 1)))
            prev bufferNum (bufferIndex + 1) numWords
      | none =>
        if prev then joinWords wordsInBytes ++ [32] else 32 :: joinWords wordsInBytes

/-- Go: `findPrevWords`. -/
def findPrevWords (buffers : List (List Byte)) (bufferNum bufferIndex numWords : Nat) :
    List Byte :=
  findContext buffers (bufferIndex + 1)
    (removeReturnCharacters ((buffers.getD bufferNum []).take bufferIndex))
    true bufferNum bufferIndex numWords

/-- Go: `findNextWords`. -/
def findNextWords (buffers : List (List Byte)) (bufferNum bufferIndex numWords : Nat) :
    List Byte :=
  findContext buffers ((buffers.getD bufferNum []).length + 1 - bufferIndex)
    (removeReturnCharacters ((buffers.getD bufferNum []).drop bufferIndex))
    false bufferNum bufferIndex numWords

/-- State of the per-buffer scan loop inside `Search`: the trimmed remaining
buffer, the cursor offset `skip` into the full buffer, the matches collected
so far, and whether the loop has exited (`break`) or the goroutine panicked. -/
structure ScanState where
  buffer : List Byte
  skip : Nat
  matchList : List (List Byte)
  halted : Bool
  panicked : Bool
deriving DecidableEq

/-- Initial state of the scan loop for buffer `i`. -/
def initScanState (buffers : List (List Byte)) (i : Nat) : ScanState :=
  { buffer := buffers.getD i [], skip := 0, matchList := [], halted := false, panicked := false }

/-- One iteration of the scan loop of `Search` over buffer `i`:
find the lowercased word in the lowercased trimmed buffer, validate with
`isExactWord` (an error breaks the loop, a panic kills the goroutine),
render the match with its context, and advance the cursor past the
occurrence. -/
def scanStep (buffers : List (List Byte)) (i : Nat) (word : List Byte) (context : Nat)
    (s : ScanState) : ScanState :=
  if s.halted || s.panicked then s
  else
    match indexOfSub (lower s.buffer) (lower word) with
    | none => { s with halted := true }
    | some wordIndex =>
      match isExactWord buffers i word (wordIndex + s.skip) with
      | IEW.panic => { s with panicked := true }
      | IEW.err => { s with halted := true }
      | IEW.ok false =>
        { s with skip := s.skip + (wordIndex + word.length),
                 buffer := s.buffer.drop (wordIndex + word.length) }
      | IEW.ok true =>
        { s with matchList := s.matchList ++
            [(if 0 < context then findPrevWords buffers i (wordIndex + s.skip) context else []) ++
              ((buffers.getD i []).drop (wordIndex + s.skip)).take word.length ++
              (if 0 < context then
                findNextWords buffers i (wordIndex + s.skip + word.length) context else [])],
                 skip := s.skip + (wordIndex + word.length),
                 buffer := s.buffer.drop (wordIndex + word.length) }

/-- The scan loop of `Search` run to completion on buffer `i`.  The loop is
iterated `length + 1` times; for a non-empty word this provably reaches the
exit (each found occurrence strictly shrinks the trimmed buffer), and for an
empty word the loop never exits, faithfully to the Go `for {}` loop. -/
def scanBuffer (buffers : List (List Byte)) (i : Nat) (word : List Byte) (context : Nat) :
    ScanState :=
  (scanStep buffers i word context)^[(buffers.getD i []).length + 1] (initScanState buffers i)

/-- The parallel scanning and flattening part of `Search`, given the fence-
filled buffer list: every buffer is scanned independently and the per-buffer
match lists are concatenated in buffer order (no deduplication).  `none`
models a goroutine panic (which crashes the program) and the modelling
artefact of a scan that does not exit within its fuel (an infinite Go loop);
in both cases `Search` returns no value. -/
def searchScan (buffers : List (List Byte)) (word : List Byte) (context : Nat) :
    Option (List (List Byte)) :=
  if ((List.range buffers.length).map fun i => scanBuffer buffers i word context).any
      (fun s => s.panicked || !s.halted) then none
  else
    some ((((List.range buffers.length).map fun i => scanBuffer buffers i word context).map
      fun s => s.matchList).flatten)

/-- Go: `Search`.  First the fence slots of `ts.fileBuffers` are overwritten
in place with fences of `context * maxWordSizeInBytes` bytes taken from each
side of the chunk boundary (if that width exceeds a neighbouring chunk's
length `chunkSize`, the Go slice expression panics: `none`), then every
buffer is scanned and the results are flattened. -/
def search (ts : TextSearcher) (word : List Byte) (context : Nat) :
    Option (List (List Byte)) :=
  if 1 < ts.fileBuffers.length ∧ chunkSize < context * ts.maxWordSizeInBytes then none
  else searchScan (fillFences (context * ts.maxWordSizeInBytes) ts.fileBuffers) word context

/-- The value of `ts.fileBuffers` after `Search` returns: the fence-filling
loop of `Search` assigns the freshly built fences into the odd slots of the
searcher's own buffer list, so the post-call searcher differs from the
pre-call one. -/
def searchPost (ts : TextSearcher) (context : Nat) : TextSearcher :=
  { ts with fileBuffers := fillFences (context * ts.maxWordSizeInBytes) ts.fileBuffers }

/-- The even (chunk) slots of an interleaved buffer list. -/
def evenSlots : List (List Byte) → List (List Byte)
  | [] => []
  | [a] => [a]
  | a :: _ :: rest => a :: evenSlots rest

/-- Modelled from the spec (FenceAssembler contract, for comparison with the
code's `mkFence`): the fence with the width `w` "clamped to the available
bytes in each neighbor": the last `min w len` bytes of the left chunk
followed by the first `min w len` bytes of the right chunk. -/
def mkFenceClamped (left right : List Byte) (w : Nat) : List Byte :=
  left.drop (left.length - w) ++ right.take w

/-! ### Concrete inputs used by the evaluations below -/

/-- The word "cat" as bytes. -/
def catWord : List Byte := [99, 97, 116]

/-- The word "dog" as bytes. -/
def dogWord : List Byte := [100, 111, 103]

/-- The text "cat dog" (7 bytes, a single chunk). -/
def catDogFile : List Byte := [99, 97, 116, 32, 100, 111, 103]

/-- The text "The CAT sat" (11 bytes, a single chunk). -/
def theCatSatFile : List Byte := [84, 104, 101, 32, 67, 65, 84, 32, 115, 97, 116]

/-- A 4097-byte file of spaces: chunk 0 has 4096 bytes, chunk 1 has 1 byte. -/
def twoChunkFile : List Byte := List.replicate 4097 32

/-- A 4101-byte file whose single "cat" sits just after the chunk boundary:
chunk 0 is 4096 spaces and chunk 1 is " cat " — the occurrence is covered
both by chunk 1 and, for context 1, by the fence between the chunks. -/
def c1File : List Byte := List.replicate 4096 32 ++ [32, 99, 97, 116, 32]

/-- A 4104-byte file: chunk 0 is 4096 spaces, chunk 1 is "dog dog ". -/
def c2File : List Byte := List.replicate 4096 32 ++ (dogWord ++ [32] ++ dogWord ++ [32])

/-- A 4097-byte file of 4096 letters "a" and then one letter "b": chunk 1 is
shorter than a context-1 fence half (20 bytes). -/
def c3File : List Byte := List.replicate 4096 97 ++ [98]

/-- A 4100-byte file: chunk 0 is 4096 spaces, chunk 1 is "dog ". -/
def c5File : List Byte := List.replicate 4096 32 ++ (dogWord ++ [32])

/-- A 4108-byte file whose single "cat" straddles the chunk boundary:
4095 spaces, then "cat" (its "c" is the last byte of chunk 0), 10 spaces. -/
def c10File : List Byte := List.replicate 4095 32 ++ (catWord ++ List.replicate 10 32)

/-- The searcher value `newSearcher` produces for a non-empty file. -/
def builtSearcher (file : List Byte) : TextSearcher :=
  { maxWordSizeInBytes := 20, fileBuffers := withFencePosts (chunksOf chunkSize file) }

/-! ### Facts about the chunking -/

theorem chunksOfAux_nil (c fuel : Nat) : chunksOfAux c fuel [] = [] := by
  cases fuel <;> rfl

theorem chunksOfAux_fuel (c : Nat) :
    ∀ fuel₁ fuel₂ (l : List Byte), l.length ≤ fuel₁ → l.length ≤ fuel₂ →
      chunksOfAux c fuel₁ l = chunksOfAux c fuel₂ l := by
  intro fuel₁
  induction fuel₁ with
  | zero =>
    intro fuel₂ l h₁ _
    have hl : l = [] := by cases l with
      | nil => rfl
      | cons x xs => simp at h₁
    subst hl
    rw [chunksOfAux_nil, chunksOfAux_nil]
  | succ k ih =>
    intro fuel₂ l h₁ h₂
    cases l with
    | nil => rw [chunksOfAux_nil, chunksOfAux_nil]
    | cons x xs =>
      cases fuel₂ with
      | zero => simp at h₂
      | succ m =>
        show (x :: xs.take (c - 1)) :: chunksOfAux c k (xs.drop (c - 1)) =
          (x :: xs.take (c - 1)) :: chunksOfAux c m (xs.drop (c - 1))
        have hd : (xs.drop (c - 1)).length ≤ xs.length := by
          rw [List.length_drop]; omega
        have hk : xs.length ≤ k := by simp [List.length_cons] at h₁; omega
        have hm : xs.length ≤ m := by simp [List.length_cons] at h₂; omega
        congr 1
        exact ih m (xs.drop (c - 1)) (le_trans hd hk) (le_trans hd hm)

theorem chunksOf_nil (c : Nat) : chunksOf c [] = [] := rfl

theorem chunksOf_cons (c : Nat) (x : Byte) (xs : List Byte) :
    chunksOf c (x :: xs) = (x :: xs.take (c - 1)) :: chunksOf c (xs.drop (c - 1)) := by
  show (x :: xs.take (c - 1)) :: chunksOfAux c xs.length (xs.drop (c - 1)) =
    (x :: xs.take (c - 1)) :: chunksOfAux c (xs.drop (c - 1)).length (xs.drop (c - 1))
  congr 1
  apply chunksOfAux_fuel
  · rw [List.length_drop]; omega
  · exact le_refl _

/-- The chunks reassemble to exactly the whole file: no gaps, no overlaps. -/
theorem chunksOf_flatten (c : Nat) : ∀ l : List Byte, (chunksOf c l).flatten = l
  | [] => rfl
  | x :: xs => by
    rw [chunksOf_cons, List.flatten_cons, chunksOf_flatten c (xs.drop (c - 1)),
      List.cons_append, List.take_append_drop]
termination_by l => l.length
decreasing_by simp [List.length_drop]; omega

/-- The number of chunks is the rounded-up quotient of the file size by the
chunk size. -/
theorem chunksOf_length (c : Nat) (hc : 1 ≤ c) :
    ∀ l : List Byte, (chunksOf c l).length = (l.length + (c - 1)) / c
  | [] => by
    rw [chunksOf_nil]
    simp [Nat.div_eq_of_lt (show c - 1 < c by omega)]
  | x :: xs => by
    rw [chunksOf_cons, List.length_cons, chunksOf_length c hc (xs.drop (c - 1)),
      List.length_drop, List.length_cons]
    have hr : xs.length + 1 + (c - 1) = xs.length + c := by omega
    rw [hr, Nat.add_div_right _ (by omega : 0 < c)]
    rcases le_or_lt (c - 1) xs.length with h | h
    · have : xs.length - (c - 1) + (c - 1) = xs.length := by omega
      rw [this]
    · have h0 : xs.length - (c - 1) = 0 := by omega
      rw [h0, Nat.zero_add, Nat.div_eq_of_lt (show c - 1 < c by omega),
        Nat.div_eq_of_lt (show xs.length < c by omega)]
termination_by l => l.length
decreasing_by simp [List.length_drop]; omega

/-- The chunk byte counts sum to the file size. -/
theorem chunksOf_sum (c : Nat) (l : List Byte) :
    ((chunksOf c l).map List.length).sum = l.length := by
  rw [← List.length_flatten, chunksOf_flatten]

/-- Every chunk except possibly the last has exactly `c` bytes. -/
theorem chunksOf_full (c : Nat) (hc : 1 ≤ c) :
    ∀ (l : List Byte) (i : Nat), i + 1 < (chunksOf c l).length →
      ((chunksOf c l).getD i []).length = c
  | [], i => by rw [chunksOf_nil]; intro h; simp at h
  | x :: xs, i => by
    rw [chunksOf_cons]
    intro h
    match i with
    | 0 =>
      have hne : chunksOf c (xs.drop (c - 1)) ≠ [] := by
        intro hnil
        rw [hnil] at h
        simp at h
      have hd : xs.drop (c - 1) ≠ [] := by
        intro hnil
        rw [hnil, chunksOf_nil] at hne
        exact hne rfl
      have hx : c - 1 < xs.length := by
        by_contra hcon
        exact hd (List.drop_eq_nil_of_le (by omega))
      simp only [List.getD_cons_zero, List.length_cons, List.length_take]
      omega
    | i + 1 =>
      rw [List.getD_cons_succ]
      exact chunksOf_full c hc (xs.drop (c - 1)) i (by simpa using h)
termination_by l => l.length
decreasing_by simp [List.length_drop]; omega

/-- Every chunk has at most `c` bytes. -/
theorem chunksOf_le (c : Nat) (hc : 1 ≤ c) : ∀ (l : List Byte) (i : Nat),
    ((chunksOf c l).getD i []).length ≤ c
  | [], i => by
    rw [chunksOf_nil, List.getD_eq_default _ _ (by simp)]
    exact Nat.zero_le c
  | x :: xs, i => by
    rw [chunksOf_cons]
    match i with
    | 0 =>
      simp only [List.getD_cons_zero, List.length_cons, List.length_take]
      omega
    | i + 1 =>
      rw [List.getD_cons_succ]
      exact chunksOf_le c hc (xs.drop (c - 1)) i
termination_by l => l.length
decreasing_by simp [List.length_drop]; omega

/-- A non-empty file of at most `c` bytes is a single chunk. -/
theorem chunksOf_single (c : Nat) (l : List Byte) (h0 : l ≠ []) (h1 : l.length ≤ c) :
    chunksOf c l = [l] := by
  cases l with
  | nil => exact absurd rfl h0
  | cons x xs =>
    rw [chunksOf_cons, List.take_of_length_le (by simp at h1; omega),
      List.drop_eq_nil_of_le (by simp at h1; omega), chunksOf_nil]

/-- A file of more than `c` and at most `2c` bytes is exactly two chunks. -/
theorem chunksOf_two (c : Nat) (hc : 1 ≤ c) (l : List Byte)
    (h0 : c < l.length) (h1 : l.length ≤ 2 * c) :
    chunksOf c l = [l.take c, l.drop c] := by
  cases l with
  | nil => simp at h0
  | cons x xs =>
    have hsc : c - 1 + 1 = c := by omega
    rw [chunksOf_cons, ← hsc, List.take_succ_cons, List.drop_succ_cons, hsc,
      chunksOf_single c _ ?_ ?_]
    · intro hnil
      have := congrArg List.length hnil
      simp [List.length_drop] at this
      simp [List.length_cons] at h0
      omega
    · rw [List.length_drop]
      simp [List.length_cons] at h1 ⊢
      omega

/-- Every chunk is a contiguous segment of the file. -/
theorem chunksOf_segment (c : Nat) :
    ∀ l B : List Byte, B ∈ chunksOf c l → B <:+: l
  | [], B => by rw [chunksOf_nil]; intro h; simp at h
  | x :: xs, B => by
    rw [chunksOf_cons]
    intro h
    rcases List.mem_cons.mp h with h | h
    · subst h
      have hsc : x :: xs.take (c - 1) = (x :: xs).take (c - 1 + 1) := by
        rw [List.take_succ_cons]
      rw [hsc]
      exact (List.take_prefix _ _).isInfix
    · have hin := chunksOf_segment c (xs.drop (c - 1)) B h
      exact hin.trans (((List.drop_suffix _ _).trans (List.suffix_cons x xs)).isInfix)
termination_by l => l.length
decreasing_by simp [List.length_drop]; omega

/-! ### Facts about the interleaved buffer list and the fences -/

theorem evenSlots_withFencePosts : ∀ l : List (List Byte), evenSlots (withFencePosts l) = l
  | [] => rfl
  | [c] => rfl
  | c1 :: c2 :: rest => by
    rw [withFencePosts]
    show c1 :: evenSlots (withFencePosts (c2 :: rest)) = c1 :: c2 :: rest
    rw [evenSlots_withFencePosts (c2 :: rest)]

theorem mem_withFencePosts : ∀ l B, B ∈ withFencePosts l → B ∈ l ∨ B = []
  | [], B => by intro h; simp [withFencePosts] at h
  | [c], B => by
    intro h
    simp [withFencePosts] at h
    exact Or.inl (by simp [h])
  | c1 :: c2 :: rest, B => by
    rw [withFencePosts]
    intro h
    rcases List.mem_cons.mp h with h | h
    · exact Or.inl (by simp [h])
    · rcases List.mem_cons.mp h with h | h
      · exact Or.inr h
      · rcases mem_withFencePosts (c2 :: rest) B h with h | h
        · exact Or.inl (List.mem_cons_of_mem _ h)
        · exact Or.inr h

/-- Every odd (fence) slot of the freshly built buffer list is empty. -/
theorem withFencePosts_odd : ∀ (l : List (List Byte)) (k : Nat),
    (withFencePosts l).getD (2 * k + 1) [] = []
  | [], k => by rw [withFencePosts]; simp
  | [c], k => by
    rw [withFencePosts]
    exact List.getD_eq_default _ _ (by simp only [List.length_singleton]; omega)
  | c1 :: c2 :: rest, k => by
    rw [withFencePosts]
    match k with
    | 0 => rfl
    | k + 1 =>
      have hidx : 2 * (k + 1) + 1 = (2 * k + 1) + 1 + 1 := by omega
      rw [hidx, List.getD_cons_succ, List.getD_cons_succ]
      exact withFencePosts_odd (c2 :: rest) k

/-- The interleaved buffer list of an `n`-chunk file has `2n - 1` slots. -/
theorem withFencePosts_length : ∀ l : List (List Byte), l ≠ [] →
    (withFencePosts l).length = 2 * l.length - 1
  | [], h => absurd rfl h
  | [c], _ => rfl
  | c1 :: c2 :: rest, _ => by
    show (c1 :: [] :: withFencePosts (c2 :: rest)).length = 2 * (c1 :: c2 :: rest).length - 1
    simp only [List.length_cons]
    rw [withFencePosts_length (c2 :: rest) (List.cons_ne_nil c2 rest)]
    simp only [List.length_cons]
    omega

/-- The fence-filling loop overwrites slots in place: the slot count is
unchanged. -/
theorem fillFences_length (w : Nat) : ∀ l : List (List Byte),
    (fillFences w l).length = l.length
  | [] => rfl
  | [_] => rfl
  | [_, _] => rfl
  | a :: b :: c :: rest => by
    show (a :: mkFence a c w :: fillFences w (c :: rest)).length =
      (a :: b :: c :: rest).length
    simp only [List.length_cons]
    rw [fillFences_length w (c :: rest)]
    simp only [List.length_cons]

/-- One step of the fence-filling loop on a freshly interleaved buffer list:
the first fence slot receives the fence of the first two chunks. -/
theorem fillFences_interleave (w : Nat) (c1 c2 : List Byte) (rest : List (List Byte)) :
    fillFences w (withFencePosts (c1 :: c2 :: rest)) =
      c1 :: mkFence c1 c2 w :: fillFences w (withFencePosts (c2 :: rest)) := by
  cases rest with
  | nil => rfl
  | cons r rs => rfl

/-- After fence filling, every even slot still holds its chunk. -/
theorem fillFences_getD_even (w : Nat) : ∀ (chunks : List (List Byte)) (i : Nat),
    i < chunks.length →
    (fillFences w (withFencePosts chunks)).getD (2 * i) [] = chunks.getD i []
  | [], i => by intro h; simp at h
  | [c], i => by
    intro h
    simp only [List.length_singleton] at h
    have h0 : i = 0 := by omega
    subst h0
    rfl
  | c1 :: c2 :: rest, i => by
    intro h
    rw [fillFences_interleave]
    match i with
    | 0 => rfl
    | i + 1 =>
      have hidx : 2 * (i + 1) = 2 * i + 1 + 1 := by omega
      have ih := fillFences_getD_even w (c2 :: rest) i
        (by simp only [List.length_cons] at h ⊢; omega)
      rw [hidx]
      simp only [List.getD_cons_succ]
      exact ih

/-- After fence filling, every odd slot holds the fence of its two chunk
neighbours. -/
theorem fillFences_getD_odd (w : Nat) : ∀ (chunks : List (List Byte)) (i : Nat),
    i + 1 < chunks.length →
    (fillFences w (withFencePosts chunks)).getD (2 * i + 1) [] =
      mkFence (chunks.getD i []) (chunks.getD (i + 1) []) w
  | [], i => by intro h; simp at h
  | [c], i => by
    intro h
    simp only [List.length_singleton] at h
    omega
  | c1 :: c2 :: rest, i => by
    intro h
    rw [fillFences_interleave]
    match i with
    | 0 => rfl
    | i + 1 =>
      have hidx : 2 * (i + 1) + 1 = 2 * i + 1 + 1 + 1 := by omega
      have ih := fillFences_getD_odd w (c2 :: rest) i
        (by simp only [List.length_cons] at h ⊢; omega)
      rw [hidx]
      simp only [List.getD_cons_succ] at ih ⊢
      exact ih

theorem mkFence_zero (a b : List Byte) : mkFence a b 0 = [] := by
  simp [mkFence, List.drop_length]

/-- With fence width `0` the fence-filling pass writes empty fences, so a
buffer list whose odd slots are already empty is left unchanged. -/
theorem fillFences_zero_of_odd : ∀ l : List (List Byte),
    (∀ k, l.getD (2 * k + 1) [] = []) → fillFences 0 l = l
  | [], _ => rfl
  | [a], _ => rfl
  | [a, b], h => by
    have hb : b = [] := h 0
    subst hb; rfl
  | a :: b :: c :: rest, h => by
    have hb : b = [] := h 0
    have ih := fillFences_zero_of_odd (c :: rest) (fun k => by
      have h2 := h (k + 1)
      rw [show 2 * (k + 1) + 1 = (2 * k + 1) + 1 + 1 by omega,
        List.getD_cons_succ, List.getD_cons_succ] at h2
      exact h2)
    show a :: mkFence a c 0 :: fillFences 0 (c :: rest) = a :: b :: c :: rest
    rw [mkFence_zero, hb, ih]

/-! ### Facts about the scan loop -/

theorem lower_length (l : List Byte) : (lower l).length = l.length := by
  rw [lower, List.length_map]

theorem lower_drop (l : List Byte) (n : Nat) : lower (l.drop n) = (lower l).drop n := by
  rw [lower, lower, List.map_drop]

theorem lower_take (l : List Byte) (n : Nat) : lower (l.take n) = (lower l).take n := by
  rw [lower, lower, List.map_take]

theorem get?_eq_some_getD {α : Type} (l : List α) (j : Nat) (d : α) (h : j < l.length) :
    l.get? j = some (l.getD j d) := by
  rw [List.get?_eq_getElem?, List.getD_eq_getElem?_getD]
  cases hh : l[j]? with
  | none =>
    rw [List.getElem?_eq_none_iff] at hh
    omega
  | some a => rfl

theorem indexOfSub_prefix (need : List Byte) :
    ∀ (hay : List Byte) (k : Nat), indexOfSub hay need = some k → need <+: hay.drop k := by
  intro hay
  induction hay with
  | nil =>
    intro k h
    rw [indexOfSub.eq_def] at h
    split at h
    · next hp =>
      injection h with h
      subst h
      exact List.isPrefixOf_iff_prefix.mp hp
    · exact Option.noConfusion h
  | cons a t ih =>
    intro k h
    rw [indexOfSub.eq_def] at h
    split at h
    · next hp =>
      injection h with h
      subst h
      rw [List.drop_zero]
      exact List.isPrefixOf_iff_prefix.mp hp
    · rcases Option.map_eq_some'.mp h with ⟨k', hk', rfl⟩
      rw [List.drop_succ_cons]
      exact ih k' hk'

theorem indexOfSub_nil (need : List Byte) (h : need ≠ []) : indexOfSub [] need = none := by
  rw [indexOfSub.eq_def, if_neg]
  cases need with
  | nil => exact absurd rfl h
  | cons a t => simp [List.isPrefixOf]

/-- The bytes a successful occurrence covers satisfy the per-match contract:
right length, case-insensitively equal to the word, and a contiguous segment
of the scanned buffer. -/
theorem match_slice_spec (B word : List Byte) (wi skip : Nat)
    (hpre : lower word <+: lower (B.drop (wi + skip))) :
    ((B.drop (wi + skip)).take word.length).length = word.length ∧
      lower ((B.drop (wi + skip)).take word.length) = lower word ∧
      (B.drop (wi + skip)).take word.length <:+: B := by
  have hle : word.length ≤ (B.drop (wi + skip)).length := by
    have := hpre.length_le
    rwa [lower_length, lower_length] at this
  refine ⟨?_, ?_, ?_⟩
  · rw [List.length_take]; omega
  · rw [lower_take]
    have := List.prefix_iff_eq_take.mp hpre
    rw [lower_length] at this
    exact this.symm
  · exact (List.take_prefix _ _).isInfix.trans (List.drop_suffix _ _).isInfix

/-- One scan step with context `0` preserves the loop invariant: the trimmed
buffer is the full buffer minus the cursor, and every collected match is an
in-buffer case-insensitive copy of the word. -/
theorem scanStep_inv (buffers : List (List Byte)) (i : Nat) (word : List Byte) (s : ScanState)
    (h1 : s.buffer = (buffers.getD i []).drop s.skip)
    (h2 : ∀ m ∈ s.matchList, m.length = word.length ∧ lower m = lower word ∧
      m <:+: buffers.getD i []) :
    (scanStep buffers i word 0 s).buffer =
        (buffers.getD i []).drop (scanStep buffers i word 0 s).skip ∧
      ∀ m ∈ (scanStep buffers i word 0 s).matchList, m.length = word.length ∧
        lower m = lower word ∧ m <:+: buffers.getD i [] := by
  unfold scanStep
  split
  · exact ⟨h1, h2⟩
  · split
    · exact ⟨h1, h2⟩
    · next wi hidx =>
      split
      · exact ⟨h1, h2⟩
      · exact ⟨h1, h2⟩
      · refine ⟨?_, h2⟩
        show s.buffer.drop (wi + word.length) =
          (buffers.getD i []).drop (s.skip + (wi + word.length))
        rw [h1, List.drop_drop]
      · have hp := indexOfSub_prefix _ _ _ hidx
        rw [h1, ← lower_drop, List.drop_drop, Nat.add_comm s.skip wi] at hp
        have hm := match_slice_spec (buffers.getD i []) word wi s.skip hp
        constructor
        · show s.buffer.drop (wi + word.length) =
            (buffers.getD i []).drop (s.skip + (wi + word.length))
          rw [h1, List.drop_drop]
        · intro m hmem
          simp only [List.mem_append, List.mem_singleton] at hmem
          rcases hmem with hmem | hmem
          · exact h2 m hmem
          · subst hmem
            rw [if_neg (lt_irrefl 0), if_neg (lt_irrefl 0), List.nil_append, List.append_nil]
            exact hm

/-- The loop invariant holds after any number of scan steps with context `0`. -/
theorem scan_iterate_inv (buffers : List (List Byte)) (i : Nat) (word : List Byte) :
    ∀ n : Nat,
      ((scanStep buffers i word 0)^[n] (initScanState buffers i)).buffer =
          (buffers.getD i []).drop
            ((scanStep buffers i word 0)^[n] (initScanState buffers i)).skip ∧
        ∀ m ∈ ((scanStep buffers i word 0)^[n] (initScanState buffers i)).matchList,
          m.length = word.length ∧ lower m = lower word ∧ m <:+: buffers.getD i [] := by
  intro n
  induction n with
  | zero =>
    refine ⟨by simp [initScanState], ?_⟩
    intro m hm
    simp [initScanState] at hm
  | succ k ih =>
    rw [Function.iterate_succ_apply']
    exact scanStep_inv buffers i word _ ih.1 ih.2

/-- Every match collected by a full context-`0` scan of buffer `i` is an
in-buffer case-insensitive copy of the word. -/
theorem scanBuffer_zero_spec (buffers : List (List Byte)) (i : Nat) (word : List Byte) :
    ∀ m ∈ (scanBuffer buffers i word 0).matchList,
      m.length = word.length ∧ lower m = lower word ∧ m <:+: buffers.getD i [] := by
  rw [scanBuffer]
  exact (scan_iterate_inv buffers i word _).2

/-- Every string `searchScan` returns comes from the scan of some buffer. -/
theorem searchScan_mem {buffers : List (List Byte)} {word : List Byte} {context : Nat}
    {ms : List (List Byte)} (h : searchScan buffers word context = some ms) :
    ∀ m ∈ ms, ∃ i, i < buffers.length ∧ m ∈ (scanBuffer buffers i word context).matchList := by
  unfold searchScan at h
  split at h
  · cases h
  · injection h with h
    intro m hm
    rw [← h, List.mem_flatten] at hm
    obtain ⟨L, hL, hmL⟩ := hm
    rw [List.mem_map] at hL
    obtain ⟨s, hs, rfl⟩ := hL
    rw [List.mem_map] at hs
    obtain ⟨i, hi, rfl⟩ := hs
    exact ⟨i, List.mem_range.mp hi, hmL⟩

/-- With context `0` the fence width is `0` and `Search` reduces to scanning
the unchanged buffer list. -/
theorem search_zero_eq (ts : TextSearcher) (word : List Byte) :
    search ts word 0 = searchScan (fillFences 0 ts.fileBuffers) word 0 := by
  unfold search
  rw [Nat.zero_mul, if_neg]
  rintro ⟨-, h2⟩
  rw [chunkSize] at h2
  omega

/-- Unpacking a successful `newSearcher`. -/
theorem newSearcher_some {file : List Byte} {ts : TextSearcher}
    (h : newSearcher file = some ts) :
    file ≠ [] ∧ ts.maxWordSizeInBytes = 20 ∧
      ts.fileBuffers = withFencePosts (chunksOf chunkSize file) := by
  unfold newSearcher at h
  split at h
  · cases h
  · next hlen =>
    injection h with h
    subst h
    refine ⟨?_, rfl, rfl⟩
    intro hnil
    exact hlen (by rw [hnil]; rfl)

/-- Master lemma for the context-`0` queries: on a searcher built from a
file, every returned string is a case-insensitive copy of the word lying
inside a single chunk of the file. -/
theorem search_zero_mem {file word : List Byte} {ts : TextSearcher} {ms : List (List Byte)}
    (hns : newSearcher file = some ts) (hw : word ≠ [])
    (hs : search ts word 0 = some ms) :
    ∀ m ∈ ms, m.length = word.length ∧ lower m = lower word ∧
      ∃ ch ∈ chunksOf chunkSize file, m <:+: ch := by
  obtain ⟨-, -, hbufs⟩ := newSearcher_some hns
  rw [search_zero_eq, hbufs,
    fillFences_zero_of_odd _ (withFencePosts_odd (chunksOf chunkSize file))] at hs
  intro m hm
  obtain ⟨i, hi, hmem⟩ := searchScan_mem hs m hm
  obtain ⟨hlen, hlow, hinf⟩ := scanBuffer_zero_spec _ i word m hmem
  refine ⟨hlen, hlow, ?_⟩
  set B := (withFencePosts (chunksOf chunkSize file)).getD i [] with hB
  have hBmem : B ∈ withFencePosts (chunksOf chunkSize file) := by
    rw [hB, List.getD_eq_get?, List.get?_eq_get hi]
    exact List.get_mem _ _ _
  rcases mem_withFencePosts _ B hBmem with hch | hemp
  · exact ⟨B, hch, hinf⟩
  · rw [hemp] at hinf
    have hm0 : m = [] := by
      have hl := hinf.sublist.length_le
      simpa using hl
    rw [hm0, List.length_nil] at hlen
    exact absurd (List.length_eq_zero.mp hlen.symm) hw

/-! ### Termination of the scan loop -/

/-- A halted or panicked state is a fixed point of the scan step. -/
theorem scanStep_fix (buffers : List (List Byte)) (i : Nat) (word : List Byte) (context : Nat)
    (s : ScanState) (h : s.halted = true ∨ s.panicked = true) :
    scanStep buffers i word context s = s := by
  unfold scanStep
  rcases h with h | h <;> rw [if_pos (by rw [h]; simp)]

theorem scanStep_iterate_fix (buffers : List (List Byte)) (i : Nat) (word : List Byte)
    (context : Nat) (s : ScanState) (h : s.halted = true ∨ s.panicked = true) :
    ∀ n : Nat, (scanStep buffers i word context)^[n] s = s := by
  intro n
  induction n with
  | zero => rfl
  | succ k ih => rw [Function.iterate_succ_apply, scanStep_fix _ _ _ _ _ h, ih]

/-- On an active state, a scan step either exits the loop, panics, or
strictly shrinks the trimmed buffer (for a non-empty word the cursor always
advances past the found occurrence by the word's positive length). -/
theorem scanStep_shrink (buffers : List (List Byte)) (i : Nat) (word : List Byte)
    (context : Nat) (s : ScanState) (hw : word ≠ [])
    (h1 : s.halted = false) (h2 : s.panicked = false) :
    (scanStep buffers i word context s).halted = true ∨
      (scanStep buffers i word context s).panicked = true ∨
      (scanStep buffers i word context s).buffer.length < s.buffer.length := by
  have hwl : 0 < word.length := List.length_pos.mpr hw
  unfold scanStep
  rw [if_neg (by rw [h1, h2]; simp)]
  split
  · exact Or.inl rfl
  · next wi hidx =>
    have hbne : s.buffer ≠ [] := by
      intro hnil
      rw [hnil] at hidx
      have hlw : lower word ≠ [] := by
        rw [lower]
        simpa [List.map_eq_nil_iff] using hw
      rw [show lower ([] : List Byte) = [] from rfl, indexOfSub_nil _ hlw] at hidx
      cases hidx
    have hbl : 0 < s.buffer.length := List.length_pos.mpr hbne
    split
    · exact Or.inr (Or.inl rfl)
    · exact Or.inl rfl
    · refine Or.inr (Or.inr ?_)
      show (s.buffer.drop (wi + word.length)).length < s.buffer.length
      rw [List.length_drop]
      omega
    · refine Or.inr (Or.inr ?_)
      show (s.buffer.drop (wi + word.length)).length < s.buffer.length
      rw [List.length_drop]
      omega

/-- For a non-empty word, iterating the scan step one more time than the
buffer has bytes always reaches a loop exit or a panic. -/
theorem scan_halts (buffers : List (List Byte)) (i : Nat) (word : List Byte) (context : Nat)
    (hw : word ≠ []) :
    ∀ (n : Nat) (s : ScanState), s.buffer.length < n →
      ((scanStep buffers i word context)^[n] s).halted = true ∨
        ((scanStep buffers i word context)^[n] s).panicked = true := by
  intro n
  induction n with
  | zero => intro s h; omega
  | succ k ih =>
    intro s hs
    by_cases hh : s.halted = true ∨ s.panicked = true
    · rw [scanStep_iterate_fix _ _ _ _ _ hh]
      exact hh
    · have hh1 : s.halted = false := by
        cases hhal : s.halted
        · rfl
        · exact absurd (Or.inl hhal) hh
      have hh2 : s.panicked = false := by
        cases hpan : s.panicked
        · rfl
        · exact absurd (Or.inr hpan) hh
      rw [Function.iterate_succ_apply]
      rcases scanStep_shrink buffers i word context s hw hh1 hh2 with h | h | h
      · rw [scanStep_iterate_fix _ _ _ _ _ (Or.inl h)]
        exact Or.inl h
      · rw [scanStep_iterate_fix _ _ _ _ _ (Or.inr h)]
        exact Or.inr h
      · exact ih _ (by omega)

/-! ### Symbolic evaluation toolkit.  The 4096-byte chunks of the concrete
files are kept as `List.replicate` terms and never traversed element by
element; these lemmas evaluate the searcher on such buffers. -/

theorem chunkSize_eq : chunkSize = 4096 := rfl

theorem newSearcher_builtSearcher (file : List Byte) (h : file.length ≠ 0) :
    newSearcher file = some (builtSearcher file) := by
  rw [newSearcher, if_neg h]
  rfl

/-- A file of more than one and at most two chunks yields the three-slot
buffer list chunk, empty fence slot, chunk. -/
theorem builtSearcher_two (file : List Byte) (h0 : chunkSize < file.length)
    (h1 : file.length ≤ 2 * chunkSize) :
    (builtSearcher file).fileBuffers = [file.take chunkSize, [], file.drop chunkSize] := by
  show withFencePosts (chunksOf chunkSize file) = _
  rw [chunksOf_two chunkSize (by rw [chunkSize_eq]; omega) file h0 h1]
  rfl

theorem take_chunk_replicate_append (a : Byte) (rest : List Byte) :
    (List.replicate 4096 a ++ rest).take chunkSize = List.replicate 4096 a := by
  rw [chunkSize_eq, List.take_append_eq_append_take, List.take_replicate, List.length_replicate,
    Nat.min_self, Nat.sub_self, List.take_zero, List.append_nil]

theorem drop_chunk_replicate_append (a : Byte) (rest : List Byte) :
    (List.replicate 4096 a ++ rest).drop chunkSize = rest := by
  rw [chunkSize_eq, List.drop_append_eq_append_drop, List.drop_replicate, List.length_replicate,
    Nat.sub_self, List.drop_zero, List.replicate_zero, List.nil_append]

theorem lower_append (l₁ l₂ : List Byte) : lower (l₁ ++ l₂) = lower l₁ ++ lower l₂ := by
  simp [lower]

theorem lower_space_replicate (n : Nat) :
    lower (List.replicate n 32) = List.replicate n 32 := by
  rw [lower, List.map_replicate]
  simp [toLowerByte]

/-- Looking for a word that does not start with the byte `a` skips any run
of `a` bytes, shifting the found index. -/
theorem indexOfSub_replicate_append (a : Byte) (need rest : List Byte)
    (hne : need ≠ []) (hhd : need.head? ≠ some a) :
    ∀ n : Nat, indexOfSub (List.replicate n a ++ rest) need =
      (indexOfSub rest need).map (fun k => k + n) := by
  obtain ⟨h, t, rfl⟩ : ∃ h t, need = h :: t := by
    cases need with
    | nil => exact absurd rfl hne
    | cons h t => exact ⟨h, t, rfl⟩
  have hha : h ≠ a := by
    intro he
    rw [he] at hhd
    exact hhd rfl
  intro n
  induction n with
  | zero =>
    rw [show List.replicate 0 a ++ rest = rest from by simp]
    cases hi : indexOfSub rest (h :: t) <;> simp
  | succ m ih =>
    rw [show List.replicate (m + 1) a ++ rest = a :: (List.replicate m a ++ rest) from rfl,
      indexOfSub.eq_def, if_neg (by simp [List.isPrefixOf, hha])]
    show (indexOfSub (List.replicate m a ++ rest) (h :: t)).map (fun k => k + 1) = _
    rw [ih, Option.map_map]
    cases hi : indexOfSub rest (h :: t) with
    | none => simp
    | some k =>
      simp only [Option.map_some', Function.comp]
      rw [Nat.add_assoc]

theorem indexOfSub_replicate_none (n : Nat) (a : Byte) (need : List Byte)
    (hne : need ≠ []) (hhd : need.head? ≠ some a) :
    indexOfSub (List.replicate n a) need = none := by
  have h := indexOfSub_replicate_append a need [] hne hhd n
  rw [List.append_nil, indexOfSub_nil _ hne] at h
  rw [h]
  rfl

/-- A scan step on an active state whose buffer does not contain the word
exits the loop. -/
theorem scanStep_none (buffers : List (List Byte)) (i : Nat) (word : List Byte)
    (context : Nat) (s : ScanState) (hh : s.halted = false) (hp : s.panicked = false)
    (h : indexOfSub (lower s.buffer) (lower word) = none) :
    scanStep buffers i word context s = { s with halted := true } := by
  unfold scanStep
  rw [if_neg (by rw [hh, hp]; simp), h]

/-- A full scan of a buffer that does not contain the word halts after one
iteration with no matches. -/
theorem scanBuffer_nomatch (buffers : List (List Byte)) (i : Nat) (word : List Byte)
    (context : Nat) (h : indexOfSub (lower (buffers.getD i [])) (lower word) = none) :
    scanBuffer buffers i word context =
      { buffer := buffers.getD i [], skip := 0, matchList := [], halted := true,
        panicked := false } := by
  rw [scanBuffer, Function.iterate_succ_apply,
    scanStep_none buffers i word context (initScanState buffers i) rfl rfl h,
    scanStep_iterate_fix _ _ _ _ _ (Or.inl rfl)]
  rfl

/-- Evaluation of `searchScan` on a three-buffer set whose per-buffer scans
are known and have all exited normally. -/
theorem searchScan_three (b0 b1 b2 : List Byte) (word : List Byte) (context : Nat)
    (s0 s1 s2 : ScanState)
    (h0 : scanBuffer [b0, b1, b2] 0 word context = s0)
    (h1 : scanBuffer [b0, b1, b2] 1 word context = s1)
    (h2 : scanBuffer [b0, b1, b2] 2 word context = s2)
    (hh0 : s0.halted = true) (hp0 : s0.panicked = false)
    (hh1 : s1.halted = true) (hp1 : s1.panicked = false)
    (hh2 : s2.halted = true) (hp2 : s2.panicked = false) :
    searchScan [b0, b1, b2] word context =
      some (s0.matchList ++ (s1.matchList ++ (s2.matchList ++ []))) := by
  unfold searchScan
  rw [show ([b0, b1, b2] : List (List Byte)).length = 3 from rfl,
    show List.range 3 = [0, 1, 2] from by decide]
  simp only [List.map_cons, List.map_nil, h0, h1, h2, List.any_cons, List.any_nil,
    hh0, hp0, hh1, hp1, hh2, hp2, Bool.not_true, Bool.or_false, Bool.false_or,
    Bool.or_self, Bool.false_eq_true, if_false, List.flatten]

/-- Evaluation of the fence between a full 4096-byte chunk of repeated bytes
and a short right chunk: the fence ends in `w - len` padding zero bytes read
from the right chunk's backing array beyond its length. -/
theorem mkFence_replicate (a : Byte) (right : List Byte) (w : Nat) (hw : w ≤ 4096)
    (hr : right.length ≤ w) :
    mkFence (List.replicate 4096 a) right w =
      List.replicate w a ++ (right ++ List.replicate (w - right.length) 0) := by
  rw [mkFence, List.length_replicate, List.drop_replicate, padTo, chunkSize_eq,
    List.take_append_eq_append_take, List.take_of_length_le hr, List.take_replicate]
  have e1 : 4096 - (4096 - w) = w := by omega
  have e2 : min (w - right.length) (4096 - right.length) = w - right.length := by omega
  rw [e1, e2]

/-! ### Claim theorems -/

/-- C4: for every file `NewSearcher` reads successfully, the produced chunk
sequence covers the file exactly: the chunks reassemble to the file, their
number is the rounded-up quotient of the file size by 4096, every chunk but
possibly the last has exactly 4096 bytes, and the chunk lengths sum to the
file size. -/
theorem c4_chunking (file : List Byte) (ts : TextSearcher)
    (h : newSearcher file = some ts) :
    evenSlots ts.fileBuffers = chunksOf chunkSize file ∧
      (chunksOf chunkSize file).flatten = file ∧
      (chunksOf chunkSize file).length = (file.length + (chunkSize - 1)) / chunkSize ∧
      (∀ i, i + 1 < (chunksOf chunkSize file).length →
        ((chunksOf chunkSize file).getD i []).length = chunkSize) ∧
      ((chunksOf chunkSize file).map List.length).sum = file.length := by
  obtain ⟨-, -, hbufs⟩ := newSearcher_some h
  exact ⟨by rw [hbufs, evenSlots_withFencePosts], chunksOf_flatten chunkSize file,
    chunksOf_length chunkSize (by rw [chunkSize_eq]; omega) file,
    chunksOf_full chunkSize (by rw [chunkSize_eq]; omega) file,
    chunksOf_sum chunkSize file⟩

/-- Witness for C4 on the concrete 4097-byte file `twoChunkFile`. -/
theorem c4_chunking_witness :
    newSearcher twoChunkFile = some (builtSearcher twoChunkFile) ∧
      evenSlots (builtSearcher twoChunkFile).fileBuffers = chunksOf chunkSize twoChunkFile ∧
      (chunksOf chunkSize twoChunkFile).flatten = twoChunkFile ∧
      (chunksOf chunkSize twoChunkFile).length = 2 ∧
      ((chunksOf chunkSize twoChunkFile).getD 0 []).length = chunkSize ∧
      ((chunksOf chunkSize twoChunkFile).map List.length).sum = twoChunkFile.length := by
  have hlen : twoChunkFile.length = 4097 := by
    rw [twoChunkFile, List.length_replicate]
  have hns : newSearcher twoChunkFile = some (builtSearcher twoChunkFile) :=
    newSearcher_builtSearcher _ (by rw [hlen]; omega)
  have hc := c4_chunking twoChunkFile (builtSearcher twoChunkFile) hns
  have hlen2 : (chunksOf chunkSize twoChunkFile).length = 2 := by
    rw [hc.2.2.1, hlen, chunkSize_eq]
  exact ⟨hns, hc.1, hc.2.1, hlen2, hc.2.2.2.1 0 (by rw [hlen2]; omega), hc.2.2.2.2⟩

/-- C7: with context `0`, every string `Search` returns has exactly the
word's byte length, matches the word case-insensitively, and is a verbatim
original-casing contiguous segment of the file (so no surrounding
whitespace). -/
theorem c7_casing (file word : List Byte) (ts : TextSearcher) (ms : List (List Byte))
    (hns : newSearcher file = some ts) (hw : word ≠ [])
    (hs : search ts word 0 = some ms) :
    ∀ m ∈ ms, m.length = word.length ∧ lower m = lower word ∧ m <:+: file := by
  intro m hm
  obtain ⟨h1, h2, ch, hch, hinf⟩ := search_zero_mem hns hw hs m hm
  exact ⟨h1, h2, hinf.trans (chunksOf_segment chunkSize file ch hch)⟩

/-- Witness for C7 on the file "The CAT sat" and the query word "cat": the
returned string is "CAT", in the file's casing. -/
theorem c7_casing_witness :
    newSearcher theCatSatFile = some (builtSearcher theCatSatFile) ∧
      search (builtSearcher theCatSatFile) catWord 0 = some [[67, 65, 84]] ∧
      ([67, 65, 84] : List Byte).length = catWord.length ∧
      lower [67, 65, 84] = lower catWord ∧ ([67, 65, 84] : List Byte) <:+: theCatSatFile := by
  have hns : newSearcher theCatSatFile = some (builtSearcher theCatSatFile) := by decide
  have hs : search (builtSearcher theCatSatFile) catWord 0 = some [[67, 65, 84]] := by decide
  have hc := c7_casing theCatSatFile catWord (builtSearcher theCatSatFile) [[67, 65, 84]]
    hns (by decide) hs [67, 65, 84] (by decide)
  exact ⟨hns, hs, hc.1, hc.2.1, hc.2.2⟩

/-- C10: on a searcher built from a file, a context-`0` query uses fences of
width 0 × 20 = 0, so every fence slot holds the empty buffer, and every
returned match lies inside a single chunk — an occurrence straddling a
chunk boundary is contained in no buffer and is never reported. -/
theorem c10_fences (file word : List Byte) (ts : TextSearcher) (ms : List (List Byte))
    (hns : newSearcher file = some ts) (hmulti : chunkSize < file.length)
    (hw : word ≠ []) (hs : search ts word 0 = some ms) :
    (∀ k, (fillFences (0 * ts.maxWordSizeInBytes) ts.fileBuffers).getD (2 * k + 1) [] = []) ∧
      ∀ m ∈ ms, ∃ ch ∈ chunksOf chunkSize file, m <:+: ch := by
  obtain ⟨-, -, hbufs⟩ := newSearcher_some hns
  constructor
  · intro k
    rw [Nat.zero_mul, hbufs,
      fillFences_zero_of_odd _ (withFencePosts_odd (chunksOf chunkSize file))]
    exact withFencePosts_odd (chunksOf chunkSize file) k
  · intro m hm
    obtain ⟨h1, h2, ch, hch, hinf⟩ := search_zero_mem hns hw hs m hm
    exact ⟨ch, hch, hinf⟩

/-- Witness for C10 on a 4108-byte file whose only "cat" straddles the
boundary between its two chunks: the context-`0` query returns nothing. -/
theorem c10_fences_witness :
    newSearcher c10File = some (builtSearcher c10File) ∧
      search (builtSearcher c10File) catWord 0 = some [] ∧
      (fillFences (0 * (builtSearcher c10File).maxWordSizeInBytes)
        (builtSearcher c10File).fileBuffers).getD (2 * 0 + 1) [] = [] := by
  have hlen : c10File.length = 4108 := by
    rw [c10File]
    simp only [List.length_append, List.length_replicate]
    rfl
  have hns : newSearcher c10File = some (builtSearcher c10File) :=
    newSearcher_builtSearcher _ (by rw [hlen]; omega)
  have htake : c10File.take chunkSize = List.replicate 4095 32 ++ [99] := by
    rw [c10File, chunkSize_eq, List.take_append_eq_append_take, List.take_replicate,
      List.length_replicate, Nat.min_eq_right (by omega)]
    rfl
  have hdrop : c10File.drop chunkSize = [97, 116] ++ List.replicate 10 32 := by
    rw [c10File, chunkSize_eq, List.drop_append_eq_append_drop, List.drop_replicate,
      List.length_replicate]
    rfl
  have hchunks : (builtSearcher c10File).fileBuffers =
      [List.replicate 4095 32 ++ [99], [], [97, 116] ++ List.replicate 10 32] := by
    rw [builtSearcher_two c10File (by rw [hlen, chunkSize_eq]; omega)
      (by rw [hlen, chunkSize_eq]; omega), htake, hdrop]
  have hfill0 : fillFences 0
      [List.replicate 4095 32 ++ [99], [], [97, 116] ++ List.replicate 10 32] =
      [List.replicate 4095 32 ++ [99], [], [97, 116] ++ List.replicate 10 32] := by
    show [List.replicate 4095 32 ++ [99],
      mkFence (List.replicate 4095 32 ++ [99]) ([97, 116] ++ List.replicate 10 32) 0,
      [97, 116] ++ List.replicate 10 32] = _
    rw [mkFence_zero]
  have h0 : indexOfSub (lower ((List.replicate 4095 32 ++ [99] : List Byte))) (lower catWord) =
      none := by
    rw [lower_append, lower_space_replicate,
      indexOfSub_replicate_append 32 (lower catWord) (lower [99]) (by decide) (by decide),
      show indexOfSub (lower [99]) (lower catWord) = none from by decide]
    rfl
  have hb0 := scanBuffer_nomatch
    [List.replicate 4095 32 ++ [99], [], [97, 116] ++ List.replicate 10 32] 0 catWord 0 h0
  have hb1 := scanBuffer_nomatch
    [List.replicate 4095 32 ++ [99], [], [97, 116] ++ List.replicate 10 32] 1 catWord 0
    (by decide)
  have hb2 := scanBuffer_nomatch
    [List.replicate 4095 32 ++ [99], [], [97, 116] ++ List.replicate 10 32] 2 catWord 0
    (by decide)
  have hs : search (builtSearcher c10File) catWord 0 = some [] := by
    rw [search_zero_eq, hchunks, hfill0,
      searchScan_three _ _ _ catWord 0 _ _ _ hb0 hb1 hb2 rfl rfl rfl rfl rfl rfl]
    rfl
  exact ⟨hns, hs,
    (c10_fences c10File catWord (builtSearcher c10File) [] hns
      (by rw [hlen, chunkSize_eq]; omega) (by decide) hs).1 0⟩

/-- C9 counterexample: with the empty search term the scan loop never
terminates — the step function fixes a non-halted, non-panicked state (the
cursor advances by the term's length, which is zero), so no number of
iterations reaches the loop exit. -/
theorem c9_cex :
    ¬ ∃ n : Nat, ((scanStep [[97]] 0 [] 0)^[n] (initScanState [[97]] 0)).halted = true := by
  intro hex
  obtain ⟨n, hn⟩ := hex
  have hfix : scanStep [[97]] 0 [] 0 (initScanState [[97]] 0) = initScanState [[97]] 0 := by
    decide
  have hiter : ∀ m : Nat,
      (scanStep [[97]] 0 [] 0)^[m] (initScanState [[97]] 0) = initScanState [[97]] 0 := by
    intro m
    induction m with
    | zero => rfl
    | succ k ih => rw [Function.iterate_succ_apply, hfix, ih]
  rw [hiter n] at hn
  exact absurd hn (by decide)

/-- C9 amended: for every buffer and every non-empty search term the scan
loop terminates within buffer-length-plus-one iterations, reaching either
the loop exit or a goroutine panic, because each found occurrence advances
the cursor past it by the term's positive byte length. -/
theorem c9_scan_terminates (buffers : List (List Byte)) (i : Nat) (word : List Byte)
    (context : Nat) (hw : word ≠ []) :
    (scanBuffer buffers i word context).halted = true ∨
      (scanBuffer buffers i word context).panicked = true := by
  rw [scanBuffer]
  exact scan_halts buffers i word context hw _ _ (Nat.lt_succ_self _)

/-- Witness for the amended C9 on a concrete buffer and word. -/
theorem c9_scan_terminates_witness :
    (scanBuffer [catDogFile] 0 catWord 0).halted = true ∨
      (scanBuffer [catDogFile] 0 catWord 0).panicked = true :=
  c9_scan_terminates [catDogFile] 0 catWord 0 (by decide)

/-- C5 counterexample: the occurrence of "dog" at absolute offset 4096 of
`c5File` neither starts at file offset 0 nor ends at the file's last byte,
and both its neighbouring bytes are spaces, yet `isExactWord` discards it
with the out-of-bounds error — without examining any byte — because its
start and end tests are buffer-local, not absolute. -/
theorem c5_cex :
    newSearcher c5File = some (builtSearcher c5File) ∧
      fillFences 0 (builtSearcher c5File).fileBuffers =
        [List.replicate 4096 32, [], [100, 111, 103, 32]] ∧
      isExactWord [List.replicate 4096 32, [], [100, 111, 103, 32]] 2 dogWord 0 = IEW.err ∧
      c5File.drop 4095 = [32, 100, 111, 103, 32] ∧
      isWordChar 32 = false ∧
      c5File.length = 4100 := by
  have hlen : c5File.length = 4100 := by
    rw [c5File, List.length_append, List.length_replicate]
    rfl
  have hchunks : (builtSearcher c5File).fileBuffers =
      [List.replicate 4096 32, [], [100, 111, 103, 32]] := by
    rw [builtSearcher_two c5File (by rw [hlen, chunkSize_eq]; omega)
        (by rw [hlen, chunkSize_eq]; omega), c5File, take_chunk_replicate_append,
      drop_chunk_replicate_append]
    rfl
  refine ⟨newSearcher_builtSearcher _ (by rw [hlen]; omega), ?_, by decide, ?_, by decide, hlen⟩
  · rw [hchunks]
    show [List.replicate 4096 32,
      mkFence (List.replicate 4096 32) [100, 111, 103, 32] 0, [100, 111, 103, 32]] = _
    rw [mkFence_zero]
  · rw [c5File, List.drop_append_eq_append_drop, List.drop_replicate, List.length_replicate]
    rfl

/-- C5 amended: whole-word validation examines both neighbouring bytes and
rejects exactly when at least one is a word character, provided the
candidate's neighbours are both available inside the scanned buffer: its
buffer-local offset is at least 1, `index + 1 ≤ 4096`, and the byte after
the occurrence lies within the buffer. -/
theorem c5_neighbours (buffers : List (List Byte)) (bufferNum index : Nat)
    (word B : List Byte) (hB : buffers.get? bufferNum = some B)
    (h0 : 1 ≤ index) (h1 : index + 1 ≤ chunkSize) (h2 : index + word.length < B.length) :
    isExactWord buffers bufferNum word index =
      IEW.ok (!(isWordChar (B.getD (index - 1) 0) ||
        isWordChar (B.getD (index + word.length) 0))) := by
  have hlt : bufferNum < buffers.length := by
    by_contra hcon
    push_neg at hcon
    rw [List.get?_eq_none.mpr hcon] at hB
    cases hB
  unfold isExactWord
  rw [if_neg (by rintro ⟨-, hz⟩; omega), if_neg (by rintro ⟨hz, -⟩; omega),
    if_neg (by rintro (hz | hz) <;> omega)]
  simp only [idx?, hB]
  rw [get?_eq_some_getD B (index - 1) 0 (by omega),
    get?_eq_some_getD B (index + word.length) 0 h2]

/-- Witness for the amended C5 on a concrete buffer: a candidate "cat" with
a space on each side inside the buffer is accepted. -/
theorem c5_neighbours_witness :
    isExactWord [[32, 99, 97, 116, 32]] 0 catWord 1 =
      IEW.ok (!(isWordChar (([32, 99, 97, 116, 32] : List Byte).getD 0 0) ||
        isWordChar (([32, 99, 97, 116, 32] : List Byte).getD 4 0))) :=
  c5_neighbours [[32, 99, 97, 116, 32]] 0 1 catWord [32, 99, 97, 116, 32] rfl
    (by omega) (by rw [chunkSize_eq]; omega) (by decide)

/-- C6 (code bug): in the file "cat dog" the match "dog" ends at the file's
last byte; the end-of-file branch of `isExactWord` is dead (it compares the
buffer number against the buffer count itself, which is never a valid
index), so the general path runs and reads one byte past the buffer — a
runtime panic instead of the accept-on-non-word-neighbour the claim
describes, and `Search` crashes instead of reporting the match. -/
theorem c6_last_byte_panic :
    newSearcher catDogFile = some (builtSearcher catDogFile) ∧
      isExactWord (builtSearcher catDogFile).fileBuffers 0 dogWord 4 = IEW.panic ∧
      search (builtSearcher catDogFile) dogWord 0 = none := by
  refine ⟨by decide, by decide, by decide⟩

/-- C2 (code bug): in `c2File` chunk 1 is "dog dog "; its first "dog" fails
the boundary check (buffer-local offset 0), and the scan loop `break`s on
that error, discarding the whole rest of the buffer — so the second,
perfectly validating "dog" (shown accepted by `isExactWord` at offset 4) is
never reported and the query returns an empty list. -/
theorem c2_break_loses_matches :
    newSearcher c2File = some (builtSearcher c2File) ∧
      search (builtSearcher c2File) dogWord 0 = some [] ∧
      isExactWord [List.replicate 4096 32, [],
        [100, 111, 103, 32, 100, 111, 103, 32]] 2 dogWord 4 = IEW.ok true := by
  have hlen : c2File.length = 4104 := by
    rw [c2File, List.length_append, List.length_replicate]
    rfl
  have hchunks : (builtSearcher c2File).fileBuffers =
      [List.replicate 4096 32, [], [100, 111, 103, 32, 100, 111, 103, 32]] := by
    rw [builtSearcher_two c2File (by rw [hlen, chunkSize_eq]; omega)
        (by rw [hlen, chunkSize_eq]; omega), c2File, take_chunk_replicate_append,
      drop_chunk_replicate_append]
    rfl
  have hfill0 : fillFences 0
      [List.replicate 4096 32, [], ([100, 111, 103, 32, 100, 111, 103, 32] : List Byte)] =
      [List.replicate 4096 32, [], [100, 111, 103, 32, 100, 111, 103, 32]] := by
    show [List.replicate 4096 32,
      mkFence (List.replicate 4096 32) [100, 111, 103, 32, 100, 111, 103, 32] 0,
      [100, 111, 103, 32, 100, 111, 103, 32]] = _
    rw [mkFence_zero]
  have h0 : indexOfSub (lower (List.replicate 4096 32)) (lower dogWord) = none := by
    rw [lower_space_replicate]
    exact indexOfSub_replicate_none 4096 32 _ (by decide) (by decide)
  have hb0 := scanBuffer_nomatch
    [List.replicate 4096 32, [], [100, 111, 103, 32, 100, 111, 103, 32]] 0 dogWord 0 h0
  have hb1 := scanBuffer_nomatch
    [List.replicate 4096 32, [], [100, 111, 103, 32, 100, 111, 103, 32]] 1 dogWord 0
    (by decide)
  have hb2 : scanBuffer
      [List.replicate 4096 32, [], [100, 111, 103, 32, 100, 111, 103, 32]] 2 dogWord 0 =
      { buffer := [100, 111, 103, 32, 100, 111, 103, 32], skip := 0, matchList := [],
        halted := true, panicked := false } := by decide
  refine ⟨newSearcher_builtSearcher _ (by rw [hlen]; omega), ?_, by decide⟩
  rw [search_zero_eq, hchunks, hfill0,
    searchScan_three _ _ _ dogWord 0 _ _ _ hb0 hb1 hb2 rfl rfl rfl rfl rfl rfl]
  rfl

/-- C1 (code bug): the single whole-word "cat" of `c1File` (absolute bytes
4097–4099) is reported twice by `Search` with context 1 — once from the
fence buffer (with the padding zero bytes of the short last chunk rendered
as a context word) and once from chunk 1 — because the flattening step at
the end of `Search` performs no deduplication (the source marks exactly
this with a TODO comment). -/
theorem c1_duplicates :
    newSearcher c1File = some (builtSearcher c1File) ∧
      indexOfSub (lower c1File) (lower catWord) = some 4097 ∧
      indexOfSub (lower (c1File.drop 4098)) (lower catWord) = none ∧
      search (builtSearcher c1File) catWord 1 =
        some [catWord ++ (32 :: List.replicate 15 0), catWord] := by
  have hlen : c1File.length = 4101 := by
    rw [c1File, List.length_append, List.length_replicate]
    rfl
  have hchunks : (builtSearcher c1File).fileBuffers =
      [List.replicate 4096 32, [], [32, 99, 97, 116, 32]] := by
    rw [builtSearcher_two c1File (by rw [hlen, chunkSize_eq]; omega)
        (by rw [hlen, chunkSize_eq]; omega), c1File, take_chunk_replicate_append,
      drop_chunk_replicate_append]
  have hfence : mkFence (List.replicate 4096 32) [32, 99, 97, 116, 32] 20 =
      List.replicate 20 32 ++ ([32, 99, 97, 116, 32] ++ List.replicate 15 0) := by
    rw [mkFence_replicate 32 _ 20 (by omega) (by decide)]
    rfl
  have hfill : fillFences (1 * (builtSearcher c1File).maxWordSizeInBytes)
      (builtSearcher c1File).fileBuffers =
      [List.replicate 4096 32,
        List.replicate 20 32 ++ ([32, 99, 97, 116, 32] ++ List.replicate 15 0),
        [32, 99, 97, 116, 32]] := by
    rw [hchunks, show 1 * (builtSearcher c1File).maxWordSizeInBytes = 20 from rfl]
    show [List.replicate 4096 32,
      mkFence (List.replicate 4096 32) [32, 99, 97, 116, 32] 20,
      [32, 99, 97, 116, 32]] = _
    rw [hfence]
  have hsearch : search (builtSearcher c1File) catWord 1 =
      searchScan [List.replicate 4096 32,
        List.replicate 20 32 ++ ([32, 99, 97, 116, 32] ++ List.replicate 15 0),
        [32, 99, 97, 116, 32]] catWord 1 := by
    unfold search
    rw [if_neg (by
      rintro ⟨-, hcc⟩
      rw [chunkSize_eq] at hcc
      exact absurd hcc (by decide)), hfill]
  have h0 : indexOfSub (lower (List.replicate 4096 32)) (lower catWord) = none := by
    rw [lower_space_replicate]
    exact indexOfSub_replicate_none 4096 32 _ (by decide) (by decide)
  have hb0 := scanBuffer_nomatch
    [List.replicate 4096 32,
      List.replicate 20 32 ++ ([32, 99, 97, 116, 32] ++ List.replicate 15 0),
      [32, 99, 97, 116, 32]] 0 catWord 1 h0
  have hb1 : scanBuffer
      [List.replicate 4096 32,
        List.replicate 20 32 ++ ([32, 99, 97, 116, 32] ++ List.replicate 15 0),
        [32, 99, 97, 116, 32]] 1 catWord 1 =
      { buffer := 32 :: List.replicate 15 0, skip := 24,
        matchList := [catWord ++ (32 :: List.replicate 15 0)], halted := true,
        panicked := false } := by decide
  have hb2 : scanBuffer
      [List.replicate 4096 32,
        List.replicate 20 32 ++ ([32, 99, 97, 116, 32] ++ List.replicate 15 0),
        [32, 99, 97, 116, 32]] 2 catWord 1 =
      { buffer := [32], skip := 4, matchList := [catWord], halted := true,
        panicked := false } := by decide
  refine ⟨newSearcher_builtSearcher _ (by rw [hlen]; omega), ?_, ?_, ?_⟩
  · rw [c1File, lower_append, lower_space_replicate,
      indexOfSub_replicate_append 32 (lower catWord) (lower [32, 99, 97, 116, 32]) (by decide) (by decide)]
    rfl
  · rw [c1File, List.drop_append_eq_append_drop, List.drop_replicate, List.length_replicate]
    decide
  · rw [hsearch,
      searchScan_three _ _ _ catWord 1 _ _ _ hb0 hb1 hb2 rfl rfl rfl rfl rfl rfl]
    rfl

/-- C8 (code bug): `Search` writes the fences it builds into the searcher's
own buffer list, so after a context-1 query on a two-chunk index the fence
slot holds a 40-byte buffer instead of its prior empty value: the index
state observed after `Search` differs from the state before it. -/
theorem c8_mutates_index :
    newSearcher twoChunkFile = some (builtSearcher twoChunkFile) ∧
      searchPost (builtSearcher twoChunkFile) 1 ≠ builtSearcher twoChunkFile := by
  have hlen : twoChunkFile.length = 4097 := by rw [twoChunkFile, List.length_replicate]
  have hchunks : (builtSearcher twoChunkFile).fileBuffers =
      [List.replicate 4096 32, [], [32]] := by
    rw [builtSearcher_two twoChunkFile (by rw [hlen, chunkSize_eq]; omega)
        (by rw [hlen, chunkSize_eq]; omega), twoChunkFile, chunkSize_eq, List.take_replicate,
      List.drop_replicate, Nat.min_eq_left (by omega)]
    rfl
  refine ⟨newSearcher_builtSearcher _ (by rw [hlen]; omega), ?_⟩
  intro heq
  rw [searchPost, hchunks,
    show 1 * (builtSearcher twoChunkFile).maxWordSizeInBytes = 20 from rfl,
    show fillFences 20 [List.replicate 4096 32, [], ([32] : List Byte)] =
      [List.replicate 4096 32, mkFence (List.replicate 4096 32) [32] 20, [32]] from rfl] at heq
  have hfb : [List.replicate 4096 32, mkFence (List.replicate 4096 32) [32] 20, [32]] =
      (builtSearcher twoChunkFile).fileBuffers := congrArg TextSearcher.fileBuffers heq
  rw [hchunks] at hfb
  have h1 : mkFence (List.replicate 4096 32) [32] 20 = [] :=
    (List.cons.inj (List.cons.inj hfb).2).1
  rw [mkFence_replicate 32 [32] 20 (by omega) (by decide)] at h1
  have hl := congrArg List.length h1
  rw [List.length_append, List.length_append, List.length_replicate,
    List.length_replicate] at hl
  simp at hl

/-- C3 counterexample: for the 4097-byte file `c3File` (chunk 1 is the
single byte "b") the context-1 fence `Search` builds is the last 20 bytes
of chunk 0 followed by "b" and then 19 zero bytes read beyond chunk 1's
length from its zero-filled backing array — not the clamped fence of the
claim, which would stop at the bytes actually available; and a context of
205 (fence width 4100 > 4096) makes fence construction panic, so `Search`
returns no list at all. -/
theorem c3_cex :
    (builtSearcher c3File).fileBuffers = [List.replicate 4096 97, [], [98]] ∧
      fillFences 20 (builtSearcher c3File).fileBuffers =
        [List.replicate 4096 97,
          List.replicate 20 97 ++ ([98] ++ List.replicate 19 0), [98]] ∧
      mkFenceClamped (List.replicate 4096 97) [98] 20 = List.replicate 20 97 ++ [98] ∧
      List.replicate 20 97 ++ ([98] ++ List.replicate 19 0) ≠ List.replicate 20 97 ++ [98] ∧
      search (builtSearcher c3File) catWord 205 = none := by
  have hlen : c3File.length = 4097 := by
    rw [c3File, List.length_append, List.length_replicate]
    rfl
  have hchunks : (builtSearcher c3File).fileBuffers = [List.replicate 4096 97, [], [98]] := by
    rw [builtSearcher_two c3File (by rw [hlen, chunkSize_eq]; omega)
        (by rw [hlen, chunkSize_eq]; omega), c3File, take_chunk_replicate_append,
      drop_chunk_replicate_append]
  refine ⟨hchunks, ?_, ?_, ?_, ?_⟩
  · rw [hchunks]
    show [List.replicate 4096 97, mkFence (List.replicate 4096 97) [98] 20, [98]] = _
    rw [mkFence_replicate 97 [98] 20 (by omega) (by decide)]
    rfl
  · rw [mkFenceClamped, List.length_replicate, List.drop_replicate]
    rfl
  · intro h
    have hl := congrArg List.length h
    simp at hl
  · have hcond : 1 < (builtSearcher c3File).fileBuffers.length ∧
        chunkSize < 205 * (builtSearcher c3File).maxWordSizeInBytes := by
      constructor
      · rw [hchunks]
        decide
      · rw [chunkSize_eq]
        decide
    unfold search
    rw [if_pos hcond]

/-- C3 amended: on any file of two or more chunks and for any fence width
`w ≤ 4096`, the buffer list after the fence-filling loop of `Search` keeps
all `2n - 1` slots, every even slot still holds its chunk, and every odd
(fence) slot holds the last `w` bytes of its left chunk followed by the
first `w` bytes of its right chunk's zero-filled 4096-byte backing array:
the right chunk's bytes and then `w - len` padding zero bytes whenever the
right chunk is shorter than `w`.  No clamping to the bytes actually
available takes place (and for `w > 4096` the slicing panics instead, shown
in the counterexample). -/
theorem c3_fence_formula (file : List Byte) (ts : TextSearcher) (w : Nat)
    (h1 : newSearcher file = some ts) (h2 : chunkSize < file.length)
    (hw : w ≤ chunkSize) :
    (fillFences w ts.fileBuffers).length = 2 * (chunksOf chunkSize file).length - 1 ∧
      (∀ i, i < (chunksOf chunkSize file).length →
        (fillFences w ts.fileBuffers).getD (2 * i) [] =
          (chunksOf chunkSize file).getD i []) ∧
      (∀ i, i + 1 < (chunksOf chunkSize file).length →
        (fillFences w ts.fileBuffers).getD (2 * i + 1) [] =
          ((chunksOf chunkSize file).getD i []).drop (chunkSize - w) ++
            (((chunksOf chunkSize file).getD (i + 1) []).take w ++
              List.replicate (w - ((chunksOf chunkSize file).getD (i + 1) []).length) 0)) := by
  obtain ⟨-, -, hbufs⟩ := newSearcher_some h1
  have hcne : chunksOf chunkSize file ≠ [] := by
    intro hnil
    have hfl := chunksOf_flatten chunkSize file
    rw [hnil, List.flatten_nil] at hfl
    rw [← hfl, List.length_nil, chunkSize_eq] at h2
    omega
  refine ⟨?_, ?_, ?_⟩
  · rw [hbufs, fillFences_length, withFencePosts_length _ hcne]
  · intro i hi
    rw [hbufs]
    exact fillFences_getD_even w _ i hi
  · intro i hi
    rw [hbufs, fillFences_getD_odd w _ i hi, mkFence,
      chunksOf_full chunkSize (by rw [chunkSize_eq]; omega) file i hi]
    have hmin : min (w - ((chunksOf chunkSize file).getD (i + 1) []).length)
        (chunkSize - ((chunksOf chunkSize file).getD (i + 1) []).length)
        = w - ((chunksOf chunkSize file).getD (i + 1) []).length := by omega
    rw [padTo, List.take_append_eq_append_take, List.take_replicate, hmin]

/-- Witness for the amended C3 on the concrete two-chunk file `c3File` with
fence width 20: the slot count and the single fence slot's formula. -/
theorem c3_fence_formula_witness :
    newSearcher c3File = some (builtSearcher c3File) ∧
      (fillFences 20 (builtSearcher c3File).fileBuffers).length =
        2 * (chunksOf chunkSize c3File).length - 1 ∧
      (fillFences 20 (builtSearcher c3File).fileBuffers).getD (2 * 0 + 1) [] =
        ((chunksOf chunkSize c3File).getD 0 []).drop (chunkSize - 20) ++
          (((chunksOf chunkSize c3File).getD (0 + 1) []).take 20 ++
            List.replicate (20 - ((chunksOf chunkSize c3File).getD (0 + 1) []).length) 0) := by
  have hlen : c3File.length = 4097 := by
    rw [c3File, List.length_append, List.length_replicate]
    rfl
  have hns := newSearcher_builtSearcher c3File (by rw [hlen]; omega)
  have hc2 : chunksOf chunkSize c3File = [c3File.take chunkSize, c3File.drop chunkSize] :=
    chunksOf_two chunkSize (by rw [chunkSize_eq]; omega) c3File
      (by rw [hlen, chunkSize_eq]; omega) (by rw [hlen, chunkSize_eq]; omega)
  have hmain := c3_fence_formula c3File (builtSearcher c3File) 20 hns
    (by rw [hlen, chunkSize_eq]; omega) (by rw [chunkSize_eq]; omega)
  exact ⟨hns, hmain.1, hmain.2.2 0 (by rw [hc2]; simp)⟩

end TextSearch
